import Mathlib

/-!
Verification of the SPARTA data-query system: record database construction
(`build_database`), the keyword scorer (`search_techniques`), the embedding
similarity search (`search`, `get_related_techniques`, `search_by_tactic`),
persistence (`save_embeddings` / `load_embeddings`) and the query router
(`answer_query`).

Modelling conventions, mirrored from the Python source:
* Python strings are `List Char`; `str.lower()` is `lower` (per-character,
  ASCII); the substring test `a in b` is `subOf a b`; `str.split()` with no
  separator is `splitWs` (split on whitespace runs, dropping empty words).
* Python `set(...)` of words is a deduplicated list (`List.dedup`); only
  cardinality and membership of these sets are ever used, so iteration
  order of the set is irrelevant.
* Python dicts keyed by strings are association lists with distinct keys;
  lookup is the first match (`List.find?`).
* `float` values are modelled as real numbers (vector components, which are
  always the finitely-representable outputs of the embedding provider, as
  rationals).  Float division is `fdiv`, which returns `none` when the
  divisor is zero: IEEE division by zero produces `nan`/`inf`, i.e. no
  ordinary number; `none` models that poisoned result.
* `np.argsort` (ascending) is modelled as the stable ascending index sort:
  indices ordered by value, ties by index.  NumPy's introsort is exactly
  this on the small arrays used in every concrete statement below.
* `sort(key=..., reverse=True)` on Python lists is a stable descending
  sort, modelled with `List.insertionSort` and the non-strict descending
  comparison (which is stable for it).
-/

/-- ASCII model of Python's whitespace test used by `str.split()`. -/
def isPySpace (c : Char) : Bool :=
  c == ' ' || c == '\t' || c == '\n' || c == '\r' || c == '\x0b' || c == '\x0c'

/-- Python `str.lower()`: lowercase each character. -/
def lower (s : List Char) : List Char :=
  s.map Char.toLower

/-- Does `pat` occur at the very start of `s`?  (Helper for `subOf`.) -/
def startsHere : List Char → List Char → Bool
  | [], _ => true
  | _ :: _, [] => false
  | a :: as, b :: bs => a == b && startsHere as bs

/-- Python's substring test `pat in s`. -/
def subOf (pat : List Char) : List Char → Bool
  | [] => startsHere pat []
  | c :: rest => startsHere pat (c :: rest) || subOf pat rest

/-- Helper for `splitWs`: `cur` is the current word, reversed. -/
def splitWsAux (cur : List Char) : List Char → List (List Char)
  | [] => if cur.isEmpty then [] else [cur.reverse]
  | c :: rest =>
    if isPySpace c then
      if cur.isEmpty then splitWsAux [] rest
      else cur.reverse :: splitWsAux [] rest
    else splitWsAux (c :: cur) rest

/-- Python `str.split()` with no argument: split on runs of whitespace,
with no empty words. -/
def splitWs (s : List Char) : List (List Char) :=
  splitWsAux [] s

/-- A flattened record of the SPARTA database, exactly the dict built by
`build_database` in `sparta_extractor.py` (technique entries carry no
parent, so `parent_id`/`parent_name` are `none` there). -/
structure Entry where
  type : List Char
  id : List Char
  name : List Char
  description : List Char
  tactic : List Char
  tactic_id : List Char
  tactic_description : List Char
  parent_id : Option (List Char)
  parent_name : Option (List Char)
  full_text : List Char
deriving DecidableEq, Inhabited

/-- One sub-technique of the taxonomy input (`SPARTA_DATA` leaf dicts). -/
structure SubTechniqueData where
  id : List Char
  name : List Char
  description : List Char
deriving DecidableEq, Inhabited

/-- One technique of the taxonomy input, with its nested sub-techniques. -/
structure TechniqueData where
  id : List Char
  name : List Char
  description : List Char
  sub_techniques : List SubTechniqueData
deriving DecidableEq, Inhabited

/-- One tactic of the `TACTICS` list. -/
structure TacticData where
  id : List Char
  name : List Char
  description : List Char
deriving DecidableEq, Inhabited

/-- Dict lookup `SPARTA_DATA[tactic_id]` (first matching key). -/
def lookupData (sparta_data : List (List Char × List TechniqueData))
    (k : List Char) : Option (List TechniqueData) :=
  (sparta_data.find? (fun kv => kv.1 == k)).map Prod.snd

/-- The `entry` dict appended by `build_database` for a main technique. -/
def techEntry (ti : TacticData) (t : TechniqueData) : Entry :=
  { type := "technique".toList, id := t.id, name := t.name,
    description := t.description, tactic := ti.name, tactic_id := ti.id,
    tactic_description := ti.description, parent_id := none,
    parent_name := none,
    full_text := t.name ++ [' '] ++ t.description ++ [' '] ++ ti.name }

/-- The `sub_entry` dict appended by `build_database` for a
sub-technique. -/
def subEntry (ti : TacticData) (t : TechniqueData) (sub : SubTechniqueData) :
    Entry :=
  { type := "sub_technique".toList, id := sub.id, name := sub.name,
    description := sub.description, tactic := ti.name,
    tactic_id := ti.id, tactic_description := ti.description,
    parent_id := some t.id, parent_name := some t.name,
    full_text := sub.name ++ [' '] ++ sub.description ++ [' '] ++
      t.name ++ [' '] ++ ti.name }

/-- Model of `build_database` in `sparta_extractor.py` (lines 768-809).  The source
reads the module-level constants `TACTICS` and `SPARTA_DATA`; they are the
two parameters here.  Tactics are visited in declared order; a tactic id
with no entry in `sparta_data` contributes nothing (`if tactic_id in
SPARTA_DATA`); each technique entry is followed immediately by its
sub-technique entries. -/
def build_database (tactics : List TacticData)
    (sparta_data : List (List Char × List TechniqueData)) : List Entry :=
  tactics.flatMap (fun ti =>
    match lookupData sparta_data ti.id with
    | none => []
    | some techs => techs.flatMap (fun t =>
        techEntry ti t :: t.sub_techniques.map (subEntry ti t)))

/-- The per-entry scoring loop inside `search_techniques`
(`sparta_extractor.py` lines 831-857).  Python `set`s of words are
deduplicated lists; `len(query_words & entry_words)` is the number of
distinct query words that are also entry words; the final `for word in
query_words` loop adds 5 per distinct query word occurring as a substring
of the lowercased full text. -/
def keyword_score (query : List Char) (e : Entry) : ℤ :=
  let query_lower := lower query
  let query_words := (splitWs query_lower).dedup
  let full_text_lower := lower e.full_text
  let s100 : ℤ := if subOf query_lower (lower e.name) then 100 else 0
  let s50 : ℤ := if subOf query_lower (lower e.description) then 50 else 0
  let entry_words := (splitWs full_text_lower).dedup
  let overlap := query_words.filter (fun w => entry_words.contains w)
  let s5 : ℤ := 5 * ((query_words.filter (fun w => subOf w full_text_lower)).length : ℤ)
  s100 + s50 + 10 * (overlap.length : ℤ) + s5

/-- Model of `search_techniques` in `sparta_extractor.py` (lines 826-865): score
each entry, keep positive scores (in database order), stable-sort
descending by score, return the entries of the first `top_k`. -/
def search_techniques (database : List Entry) (query : List Char)
    (top_k : ℕ) : List Entry :=
  let scored_results := database.filterMap (fun e =>
    let s := keyword_score query e
    if 0 < s then some (s, e) else none)
  let sorted := List.insertionSort (fun x y : ℤ × Entry => y.1 ≤ x.1) scored_results
  (sorted.take top_k).map Prod.snd

/-- Dot product of two float vectors (`np.dot` row-wise); components are
exact rationals, truncation to the shorter list cannot occur in the source
(all vectors share the model dimension) and is never exercised. -/
def dotQ (a b : List ℚ) : ℚ :=
  (List.zipWith (fun x y => x * y) a b).sum

/-- Sum of squared components, the square of `np.linalg.norm`. -/
def normSq (a : List ℚ) : ℚ :=
  dotQ a a

/-- Model of `np.linalg.norm`: the L2 norm, a real number. -/
noncomputable def norm2 (a : List ℚ) : ℝ :=
  Real.sqrt ((normSq a : ℝ))

open Classical in
/-- Float division.  Division by zero yields `nan`/`inf` in IEEE floats —
no ordinary number — modelled as `none`. -/
noncomputable def fdiv (x y : ℝ) : Option ℝ :=
  if y = 0 then none else some (x / y)

/-- One component of the similarity vector of `SPARTASemanticSearch.search`
(`sparta_semantic_search.py` lines 134-136):
`np.dot(emb, q) / (np.linalg.norm(emb) * np.linalg.norm(q))`, with no
guard against zero norms. -/
noncomputable def cosineSim (a b : List ℚ) : Option ℝ :=
  fdiv ((dotQ a b : ℝ)) (norm2 a * norm2 b)

/-- The value of `cosineSim` in the defined case. -/
noncomputable def cosineVal (a b : List ℚ) : ℝ :=
  ((dotQ a b : ℝ)) / (norm2 a * norm2 b)

/-- Collapse a list of float results: any `nan` (`none`) poisons the whole
similarity vector. -/
def seqOption {α : Type} : List (Option α) → Option (List α)
  | [] => some []
  | none :: _ => none
  | some a :: rest => (seqOption rest).map (fun l => a :: l)

/-- Index comparison used to model `np.argsort` (ascending, ties by
index). -/
def idxRel (sims : List ℝ) (i j : ℕ) : Prop :=
  sims.getD i 0 < sims.getD j 0 ∨ (sims.getD i 0 = sims.getD j 0 ∧ i ≤ j)

open Classical in
/-- Model of `np.argsort(sims)`: the ascending stable index sort. -/
noncomputable def argsortAsc (sims : List ℝ) : List ℕ :=
  List.insertionSort (idxRel sims) (List.range sims.length)

open Classical in
/-- The index/score core of `SPARTASemanticSearch.search`
(`sparta_semantic_search.py` lines 134-147): similarity of every stored
vector with the query vector, `np.argsort(...)[::-1][:top_k]`, then keep
the pairs with `score >= min_score`.  `none` when some similarity is
`nan` (a zero norm occurred). -/
noncomputable def searchIndex (embeddings : List (List ℚ))
    (query_embedding : List ℚ) (top_k : ℕ) (min_score : ℝ) :
    Option (List (ℕ × ℝ)) :=
  (seqOption (embeddings.map (fun v => cosineSim v query_embedding))).map
    (fun sims =>
      ((argsortAsc sims).reverse.take top_k).filterMap (fun i =>
        if min_score ≤ sims.getD i 0 then some (i, sims.getD i 0) else none))

/-- Model of `SPARTASemanticSearch.search` on an already-encoded query vector:
pair each selected index with `self.database[idx]`. -/
noncomputable def searchVec (embeddings : List (List ℚ))
    (database : List Entry) (query_embedding : List ℚ) (top_k : ℕ)
    (min_score : ℝ) : Option (List (Entry × ℝ)) :=
  (searchIndex embeddings query_embedding top_k min_score).map
    (List.map (fun p => (database.getD p.1 default, p.2)))

/-- Model of `SPARTASemanticSearch.search` (lines 110-147): the query string is
encoded by the external embedding provider `embed` (the
`SentenceTransformer` model, injected as a function), then ranked against
the stored embeddings. -/
noncomputable def search (embed : List Char → List ℚ)
    (embeddings : List (List ℚ)) (database : List Entry)
    (query : List Char) (top_k : ℕ) (min_score : ℝ) :
    Option (List (Entry × ℝ)) :=
  searchVec embeddings database (embed query) top_k min_score

/-- Model of `SPARTASemanticSearch.search_by_tactic` (lines 149-155): entries whose
tactic name contains `tactic_name` case-insensitively, in database
order. -/
def search_by_tactic (database : List Entry) (tactic_name : List Char) :
    List Entry :=
  database.filter (fun e => subOf (lower tactic_name) (lower e.tactic))

/-- Model of `SPARTASemanticSearch.get_related_techniques` (lines 157-173): locate
the first entry with the given id (`none` → return `[]`), then search with
the entry's description as query, `top_k + 1` results, default
`min_score = 0.0`, and drop the first element of the result (`[1:]`). -/
noncomputable def get_related_techniques (embed : List Char → List ℚ)
    (embeddings : List (List ℚ)) (database : List Entry)
    (technique_id : List Char) (top_k : ℕ) : Option (List (Entry × ℝ)) :=
  match database.find? (fun e => e.id == technique_id) with
  | none => some []
  | some technique =>
      (search embed embeddings database technique.description (top_k + 1) 0).map
        (fun l => l.drop 1)

/-- The pickled artifact written by `save_embeddings`
(`sparta_semantic_search.py` lines 90-98): the vector matrix and the
provider (model) name. -/
structure SavedIndex where
  embeddings : List (List ℚ)
  model_name : List Char
deriving DecidableEq

/-- Model of `SPARTASemanticSearch.save_embeddings` (lines 90-98). -/
def save_embeddings (embeddings : List (List ℚ)) (model_name : List Char) :
    SavedIndex :=
  { embeddings := embeddings, model_name := model_name }

/-- Model of `SPARTASemanticSearch.load_embeddings` (lines 100-108): if the file
exists (`some data`), install `data['embeddings']` and report success; the
stored `model_name` is read but never compared with the configured one. -/
def load_embeddings : Option SavedIndex → Option (List (List ℚ))
  | some data => some data.embeddings
  | none => none

/-- The `tactic_keywords` dict of `SPARTAQueryAgent.answer_query`
(`sparta_semantic_search.py` lines 199-209), in insertion order. -/
def tactic_keywords : List (List Char × List Char) :=
  [("reconnaissance".toList, "Reconnaissance".toList),
   ("resource development".toList, "Resource Development".toList),
   ("initial access".toList, "Initial Access".toList),
   ("execution".toList, "Execution".toList),
   ("persistence".toList, "Persistence".toList),
   ("defense evasion".toList, "Defense Evasion".toList),
   ("lateral movement".toList, "Lateral Movement".toList),
   ("exfiltration".toList, "Exfiltration".toList),
   ("impact".toList, "Impact".toList)]

/-- The keyword loop of `answer_query` (lines 211-214): first keyword that
is a substring of the lowercased query wins. -/
def routeTactic (query_lower : List Char) :
    List (List Char × List Char) → Option (List Char)
  | [] => none
  | kv :: rest =>
    if subOf kv.1 query_lower then some kv.2 else routeTactic query_lower rest

/-- The routing outcome of `SPARTAQueryAgent.answer_query`: either the
tactic path with the canonical tactic name and the records handed to
`_format_tactic_response`, or the semantic path with the results handed to
`_format_search_response`.  The `_format_*` methods are pure string
rendering over these data. -/
inductive QueryResponse where
  | tacticPath (canonical : List Char) (techniques : List Entry)
  | semanticPath (results : Option (List (Entry × ℝ)))

/-- Model of `SPARTAQueryAgent.answer_query` (lines 185-218): scan
`tactic_keywords`; on a hit run `search_by_tactic`, otherwise semantic
search with `top_k=5, min_score=0.3`. -/
noncomputable def answer_query (embed : List Char → List ℚ)
    (embeddings : List (List ℚ)) (database : List Entry)
    (query : List Char) : QueryResponse :=
  match routeTactic (lower query) tactic_keywords with
  | some canonical =>
      QueryResponse.tacticPath canonical (search_by_tactic database canonical)
  | none =>
      QueryResponse.semanticPath
        (search embed embeddings database query 5 (3 / 10))

/-- Concrete record used to witness the keyword-rank theorem. -/
def jamEntry : Entry :=
  { type := "technique".toList, id := "IMP-0002".toList,
    name := "Jamming".toList, description := "jam the RF signals".toList,
    tactic := "Impact".toList, tactic_id := "ST0009".toList,
    tactic_description := "impact".toList, parent_id := none,
    parent_name := none, full_text := "jamming jam the RF signals impact".toList }

/-- The claim's `count(techniques)`: number of techniques in the taxonomy
input. -/
def techniqueCount (sparta_data : List (List Char × List TechniqueData)) : ℕ :=
  (sparta_data.map (fun kv => kv.2.length)).sum

/-- The claim's `count(sub_techniques)`: number of sub-techniques in the
taxonomy input. -/
def subTechniqueCount (sparta_data : List (List Char × List TechniqueData)) : ℕ :=
  (sparta_data.map (fun kv => (kv.2.map (fun t => t.sub_techniques.length)).sum)).sum

/-- Concrete tactic and technique used in the build theorems below. -/
def recTactic : TacticData :=
  { id := "ST0001".toList, name := "Reconnaissance".toList,
    description := "gather information".toList }

/-- Concrete sub-technique for the build theorems. -/
def sampleSub : SubTechniqueData :=
  { id := "REC-0001.01".toList, name := "Software Design".toList,
    description := "software".toList }

/-- Concrete technique (with one sub-technique) for the build theorems. -/
def sampleTech : TechniqueData :=
  { id := "REC-0001".toList, name := "Gather Design Information".toList,
    description := "gather design".toList, sub_techniques := [sampleSub] }

/-- The similarity `similarities[idx]` read by `search` for record `idx`,
in the defined (`nan`-free) case. -/
noncomputable def simVal (embeddings : List (List ℚ)) (q : List ℚ) (i : ℕ) : ℝ :=
  (embeddings.map (fun v => cosineVal v q)).getD i 0

/-- First record of the two-record similarity counterexamples. -/
def entryA : Entry :=
  { type := "technique".toList, id := "REC-0001".toList,
    name := "Alpha".toList, description := "da".toList,
    tactic := "Reconnaissance".toList, tactic_id := "ST0001".toList,
    tactic_description := "d".toList, parent_id := none, parent_name := none,
    full_text := "alpha da reconnaissance".toList }

/-- Second record of the two-record similarity counterexamples. -/
def entryB : Entry :=
  { type := "technique".toList, id := "REC-0002".toList,
    name := "Beta".toList, description := "db".toList,
    tactic := "Reconnaissance".toList, tactic_id := "ST0001".toList,
    tactic_description := "d".toList, parent_id := none, parent_name := none,
    full_text := "beta db reconnaissance".toList }

/-! ### Helper lemmas: keyword scoring and stable sorting -/

/-- Every contribution of the scoring loop is nonnegative. -/
lemma keyword_score_nonneg (query : List Char) (e : Entry) :
    0 ≤ keyword_score query e := by
  simp only [keyword_score]
  split_ifs <;> positivity

lemma dedup_toFinset (l : List (List Char)) : l.dedup.toFinset = l.toFinset := by
  ext w; simp [List.mem_dedup]

lemma length_filter_dedup (l : List (List Char)) (p : List Char → Bool) :
    (l.dedup.filter p).length = (l.toFinset.filter (fun w => p w = true)).card := by
  have hnd : (l.dedup.filter p).Nodup := (List.nodup_dedup l).filter p
  rw [← List.toFinset_card_of_nodup hnd, List.toFinset_filter]
  congr 1
  ext w; simp [List.mem_dedup]

lemma overlap_card (l l' : List (List Char)) :
    (l.dedup.filter (fun w => l'.contains w)).length =
      (l.toFinset ∩ l'.toFinset).card := by
  rw [length_filter_dedup]
  congr 1
  rw [← Finset.filter_mem_eq_inter]
  apply Finset.filter_congr
  intro w _
  constructor
  · intro h; exact List.mem_toFinset.2 (List.elem_iff.1 h)
  · intro h; exact List.elem_iff.2 (List.mem_toFinset.1 h)

/-- The list of positively scored pairs built by the loop of
`search_techniques` is the map of the score pairing over the entries with
nonzero score (scores are never negative). -/
lemma scored_results_eq (database : List Entry) (query : List Char) :
    (database.filterMap (fun e =>
      let s := keyword_score query e
      if 0 < s then some (s, e) else none)) =
    (database.filter (fun e => decide (keyword_score query e ≠ 0))).map
      (fun e => (keyword_score query e, e)) := by
  induction database with
  | nil => rfl
  | cons a t ih =>
    by_cases h : keyword_score query a = 0
    · have hlt : ¬ (0 < keyword_score query a) := by omega
      simp [List.filterMap_cons, List.filter_cons, h, hlt, ih]
    · have hlt : 0 < keyword_score query a :=
        lt_of_le_of_ne (keyword_score_nonneg query a) (Ne.symm h)
      simp [List.filterMap_cons, List.filter_cons, h, hlt, ih]

/-- Inserting into a list with the non-strict descending comparison places
the new element in front of every element of equal key: per-key filtering
commutes with the insertion. -/
lemma filter_orderedInsert {α : Type} (key : α → ℤ) (a : α) (s : List α) (c : ℤ) :
    (List.orderedInsert (fun x y => key y ≤ key x) a s).filter (fun x => key x == c) =
      if key a == c then a :: s.filter (fun x => key x == c)
      else s.filter (fun x => key x == c) := by
  induction s with
  | nil => simp [List.orderedInsert, List.filter_cons]
  | cons b t ih =>
    by_cases hr : key b ≤ key a
    · rw [List.orderedInsert, if_pos hr]
      by_cases ha : (key a == c) = true <;> simp [List.filter_cons, ha]
    · rw [List.orderedInsert, if_neg hr]
      by_cases hb : (key b == c) = true
      · have hbc : key b = c := by simpa using hb
        have hac : ¬ ((key a == c) = true) := by
          simp only [beq_iff_eq]
          intro h; exact hr (le_of_lt (by omega))
        simp [List.filter_cons, hb, ih, hac]
      · by_cases ha : (key a == c) = true <;> simp [List.filter_cons, hb, ih, ha]

/-- The descending insertion sort is stable: it preserves the relative
order of the elements of any fixed key. -/
lemma filter_insertionSort {α : Type} (key : α → ℤ) (l : List α) (c : ℤ) :
    (List.insertionSort (fun x y => key y ≤ key x) l).filter (fun x => key x == c) =
      l.filter (fun x => key x == c) := by
  induction l with
  | nil => rfl
  | cons a t ih =>
    rw [List.insertionSort, filter_orderedInsert, List.filter_cons]
    by_cases ha : (key a == c) = true <;> simp [ha, ih]

/-! ### Claims C1 and C2: the keyword scorer -/

/-- C1: for every query string and record, the keyword score is the sum of
four independent contributions — 100 for the lowercased query occurring in
the lowercased name, 50 for the description, 10 per distinct query word in
the word set of the lowercased composite text (set-intersection
cardinality), 5 per distinct query word occurring as a substring of the
composite text — and the score is a nonnegative integer depending only on
the query and the record's fields. -/
theorem keyword_score_spec (query : List Char) (e : Entry) :
    keyword_score query e =
        (if subOf (lower query) (lower e.name) then 100 else 0)
      + (if subOf (lower query) (lower e.description) then 50 else 0)
      + 10 * (((splitWs (lower query)).toFinset ∩
            (splitWs (lower e.full_text)).toFinset).card : ℤ)
      + 5 * (((splitWs (lower query)).toFinset.filter
            (fun w => subOf w (lower e.full_text) = true)).card : ℤ)
      ∧ 0 ≤ keyword_score query e := by
  constructor
  · simp only [keyword_score]
    rw [overlap_card, length_filter_dedup, dedup_toFinset]
  · exact keyword_score_nonneg query e

/-- C2: `search_techniques` scores every record, drops the zero-score ones
(no returned record has score 0), sorts the rest by descending score with
ties kept in database order (the per-key filtrations of the sorted list
agree with those of the original), and returns the first `top_k`. -/
theorem search_techniques_spec (database : List Entry) (query : List Char)
    (top_k : ℕ) :
    ∃ sorted : List (ℤ × Entry),
      search_techniques database query top_k = (sorted.take top_k).map Prod.snd
      ∧ sorted.Perm ((database.filter (fun e => decide (keyword_score query e ≠ 0))).map
          (fun e => (keyword_score query e, e)))
      ∧ sorted.Pairwise (fun x y => y.1 ≤ x.1)
      ∧ (∀ c : ℤ, sorted.filter (fun x => x.1 == c) =
          ((database.filter (fun e => decide (keyword_score query e ≠ 0))).map
            (fun e => (keyword_score query e, e))).filter (fun x => x.1 == c))
      ∧ ∀ e ∈ search_techniques database query top_k, keyword_score query e ≠ 0 := by
  refine ⟨List.insertionSort (fun x y : ℤ × Entry => y.1 ≤ x.1)
      (database.filterMap (fun e =>
        let s := keyword_score query e
        if 0 < s then some (s, e) else none)), rfl, ?_, ?_, ?_, ?_⟩
  · rw [scored_results_eq]
    exact List.perm_insertionSort _ _
  · haveI : IsTotal (ℤ × Entry) (fun x y => y.1 ≤ x.1) :=
      ⟨fun a b => le_total b.1 a.1⟩
    haveI : IsTrans (ℤ × Entry) (fun x y => y.1 ≤ x.1) :=
      ⟨fun a b c hab hbc => le_trans hbc hab⟩
    exact List.sorted_insertionSort _ _
  · intro c
    rw [scored_results_eq, filter_insertionSort Prod.fst]
  · intro e he
    obtain ⟨p, hp, hpe⟩ := List.mem_map.1 he
    have hp2 : p ∈ List.insertionSort (fun x y : ℤ × Entry => y.1 ≤ x.1)
        (database.filterMap (fun e =>
          let s := keyword_score query e
          if 0 < s then some (s, e) else none)) :=
      List.take_subset _ _ hp
    have hp3 := (List.perm_insertionSort _ _).subset hp2
    rw [scored_results_eq] at hp3
    obtain ⟨e', he', hpe'⟩ := List.mem_map.1 hp3
    have hne := (List.mem_filter.1 he').2
    simp only [decide_eq_true_eq] at hne
    have : e' = e := by rw [← hpe, ← hpe']
    rw [← this]
    exact hne

/-- Witness for C2 at a concrete database and query. -/
theorem search_techniques_spec_witness :
    jamEntry ∈ search_techniques [jamEntry] ("jamming".toList) 1 ∧
      keyword_score ("jamming".toList) jamEntry ≠ 0 := by
  obtain ⟨srt, h1, h2, h3, h4, h5⟩ :=
    search_techniques_spec [jamEntry] ("jamming".toList) 1
  have hm : jamEntry ∈ search_techniques [jamEntry] ("jamming".toList) 1 := by decide
  exact ⟨hm, h5 jamEntry hm⟩

/-! ### Helper lemmas: database construction -/

lemma lookupData_nil (k : List Char) : lookupData [] k = none := rfl

lemma lookupData_cons (kv : List Char × List TechniqueData)
    (rest : List (List Char × List TechniqueData)) (k : List Char) :
    lookupData (kv :: rest) k =
      if kv.1 == k then some kv.2 else lookupData rest k := by
  by_cases h : (kv.1 == k) = true
  · simp [lookupData, List.find?_cons_of_pos, h]
  · simp only [lookupData, List.find?_cons]
    rw [if_neg h]
    simp [h]

lemma lookupData_eq_none (data : List (List Char × List TechniqueData))
    (k : List Char) (h : k ∉ data.map Prod.fst) : lookupData data k = none := by
  induction data with
  | nil => rfl
  | cons kv rest ih =>
    rw [lookupData_cons]
    have h1 : kv.1 ≠ k := fun hc => h (by simp [← hc])
    rw [if_neg (by simpa using h1)]
    exact ih (fun hc => h (List.mem_cons_of_mem _ hc))

lemma sum_map_succ {α : Type} (l : List α) (g : α → ℕ) :
    (l.map (fun x => g x + 1)).sum = l.length + (l.map g).sum := by
  induction l with
  | nil => rfl
  | cons a t ih =>
    simp only [List.map_cons, List.sum_cons, List.length_cons, ih]
    omega

/-- The records produced for one tactic block: one per technique plus one
per sub-technique. -/
lemma length_techBlock (ti : TacticData) (ts : List TechniqueData) :
    (ts.flatMap (fun t => techEntry ti t :: t.sub_techniques.map (subEntry ti t))).length
      = ts.length + (ts.map (fun t => t.sub_techniques.length)).sum := by
  rw [List.length_flatMap]
  have h : (List.map (List.length ∘ fun t =>
      techEntry ti t :: t.sub_techniques.map (subEntry ti t)) ts)
      = ts.map (fun t => t.sub_techniques.length + 1) := by
    apply List.map_congr_left
    intro t _
    simp [Function.comp]
  rw [h, sum_map_succ]

/-- Splitting a sum over tactics at the unique tactic whose id is `k`. -/
lemma sum_ite_unique (l : List TacticData) (k : List Char) (c : ℕ)
    (h : TacticData → ℕ)
    (hmem : k ∈ l.map TacticData.id) (hnd : (l.map TacticData.id).Nodup)
    (hzero : ∀ ti ∈ l, ti.id = k → h ti = 0) :
    (l.map (fun ti => if ti.id = k then c else h ti)).sum = c + (l.map h).sum := by
  induction l with
  | nil => simp at hmem
  | cons a t ih =>
    rw [List.map_cons] at hnd
    have hnd' := List.nodup_cons.1 hnd
    by_cases ha : a.id = k
    · have hk : k ∉ t.map TacticData.id := by rw [← ha]; exact hnd'.1
      have hmap : (t.map (fun ti => if ti.id = k then c else h ti)) = t.map h := by
        apply List.map_congr_left
        intro ti hti
        have : ti.id ≠ k := by
          intro hc
          exact hk (hc ▸ List.mem_map.2 ⟨ti, hti, rfl⟩)
        simp [this]
      have hz : h a = 0 := hzero a (List.mem_cons_self a t) ha
      simp only [List.map_cons, List.sum_cons, if_pos ha, hmap, hz]
      omega
    · have hmem' : k ∈ t.map TacticData.id := by
        rcases List.mem_cons.1 hmem with h' | h'
        · exact absurd h'.symm ha
        · exact h'
      have := ih hmem' hnd'.2 (fun ti hti => hzero ti (List.mem_cons_of_mem a hti))
      simp only [List.map_cons, List.sum_cons, if_neg ha, this]
      omega

/-- Summing a per-tactic quantity read through the dict lookup equals
summing it over the dict entries, provided every key is declared, declared
ids are distinct and keys are distinct. -/
lemma sum_lookup_eq (tactics : List TacticData)
    (data : List (List Char × List TechniqueData)) (f : List TechniqueData → ℕ)
    (hkeys : ∀ k ∈ data.map Prod.fst, k ∈ tactics.map TacticData.id)
    (hnt : (tactics.map TacticData.id).Nodup)
    (hnd : (data.map Prod.fst).Nodup) :
    (tactics.map (fun ti => match lookupData data ti.id with
        | some ts => f ts
        | none => 0)).sum
      = (data.map (fun kv => f kv.2)).sum := by
  induction data with
  | nil =>
    simp [lookupData_nil]
  | cons kv rest ih =>
    rw [List.map_cons] at hnd
    have hnd' := List.nodup_cons.1 hnd
    have hmem : kv.1 ∈ tactics.map TacticData.id := hkeys kv.1 (by simp)
    have hstep : (tactics.map (fun ti => match lookupData (kv :: rest) ti.id with
        | some ts => f ts
        | none => 0))
        = (tactics.map (fun ti => if ti.id = kv.1 then f kv.2 else
            match lookupData rest ti.id with
            | some ts => f ts
            | none => 0)) := by
      apply List.map_congr_left
      intro ti _
      rw [lookupData_cons]
      by_cases h : ti.id = kv.1
      · rw [if_pos (by simp [h]), if_pos h]
      · rw [if_neg (by simp [Ne.symm h]), if_neg h]
    rw [hstep]
    have hzero : ∀ ti ∈ tactics, ti.id = kv.1 →
        (match lookupData rest ti.id with
          | some ts => f ts
          | none => 0) = 0 := by
      intro ti _ hid
      rw [hid, lookupData_eq_none rest kv.1 hnd'.1]
    rw [sum_ite_unique tactics kv.1 (f kv.2) _ hmem hnt hzero]
    rw [ih (fun k hk => hkeys k (List.mem_cons_of_mem _ hk)) hnd'.2]
    simp

/-! ### Claims C8 and C9: database construction -/

/-- Counterexample for C8: a taxonomy whose single technique group is
keyed by a tactic id (`ST0001`) absent from the (empty) tactic set is
malformed in the claim's sense, yet `build_database` signals nothing: it
returns a store — the empty record list, the technique silently dropped —
even though the input contains one technique. -/
theorem build_database_malformed_cex :
    build_database [] [("ST0001".toList, [sampleTech])] = [] ∧
      techniqueCount [("ST0001".toList, [sampleTech])] = 1 := by
  exact ⟨rfl, rfl⟩

/-- C8 (amended): `build_database` never fails; techniques grouped under
an undeclared tactic id are silently omitted, so every produced record
cites a declared tactic id. -/
theorem build_database_no_error (tactics : List TacticData)
    (sparta_data : List (List Char × List TechniqueData)) :
    ∀ e ∈ build_database tactics sparta_data,
      e.tactic_id ∈ tactics.map TacticData.id := by
  intro e he
  rw [build_database, List.mem_flatMap] at he
  obtain ⟨ti, hti, hblock⟩ := he
  have hid : e.tactic_id = ti.id := by
    cases hcase : lookupData sparta_data ti.id with
    | none => rw [hcase] at hblock; simp at hblock
    | some ts =>
      rw [hcase] at hblock
      simp only [List.mem_flatMap] at hblock
      obtain ⟨t, _, hmem⟩ := hblock
      rcases List.mem_cons.1 hmem with h | h
      · rw [h]; rfl
      · obtain ⟨sub, _, hes⟩ := List.mem_map.1 h
        rw [← hes]; rfl
  rw [hid]
  exact List.mem_map.2 ⟨ti, hti, rfl⟩

/-- Witness for C8 at a concrete well-formed input. -/
theorem build_database_no_error_witness :
    (techEntry recTactic sampleTech).tactic_id ∈ [recTactic].map TacticData.id :=
  build_database_no_error [recTactic] [("ST0001".toList, [sampleTech])]
    (techEntry recTactic sampleTech) (by decide)

/-- Counterexample for C9: on the malformed taxonomy of
`build_database_malformed_cex` the record count is not
`count(techniques) + count(sub_techniques)` (it is 0, not 1 + 1). -/
theorem build_database_count_cex :
    (build_database [] [("ST0001".toList, [sampleTech])]).length ≠
      techniqueCount [("ST0001".toList, [sampleTech])] +
        subTechniqueCount [("ST0001".toList, [sampleTech])] := by
  decide

/-- C9 (amended): for every taxonomy whose technique groups are keyed by
declared tactic ids, with distinct declared ids and distinct group keys
(a dict has distinct keys), `build_database` produces exactly
`count(techniques) + count(sub_techniques)` records, and the record ids —
hence the record order — are the declared order: tactics in declared
order, each tactic's techniques in declared order, each technique
immediately followed by its sub-techniques in declared order.  The build
is a pure function of its input, hence identical across repeated runs. -/
theorem build_database_count (tactics : List TacticData)
    (sparta_data : List (List Char × List TechniqueData))
    (hkeys : ∀ k ∈ sparta_data.map Prod.fst, k ∈ tactics.map TacticData.id)
    (hnt : (tactics.map TacticData.id).Nodup)
    (hnd : (sparta_data.map Prod.fst).Nodup) :
    (build_database tactics sparta_data).length =
      techniqueCount sparta_data + subTechniqueCount sparta_data
    ∧ (build_database tactics sparta_data).map Entry.id =
        tactics.flatMap (fun ti =>
          match lookupData sparta_data ti.id with
          | none => []
          | some ts => ts.flatMap (fun t =>
              t.id :: t.sub_techniques.map SubTechniqueData.id)) := by
  constructor
  · rw [build_database, List.length_flatMap]
    have hcong : (List.map (List.length ∘ fun ti =>
        match lookupData sparta_data ti.id with
        | none => []
        | some techs => techs.flatMap (fun t =>
            techEntry ti t :: t.sub_techniques.map (subEntry ti t))) tactics)
        = tactics.map (fun ti => match lookupData sparta_data ti.id with
            | some ts => ts.length + (ts.map (fun t => t.sub_techniques.length)).sum
            | none => 0) := by
      apply List.map_congr_left
      intro ti _
      simp only [Function.comp_apply]
      cases hcase : lookupData sparta_data ti.id with
      | none => simp [hcase]
      | some ts =>
        simp only [hcase]
        exact length_techBlock ti ts
    rw [hcong, sum_lookup_eq tactics sparta_data _ hkeys hnt hnd]
    rw [techniqueCount, subTechniqueCount, ← List.sum_map_add]
  · rw [build_database, List.map_flatMap]
    congr 1
    funext ti
    cases hcase : lookupData sparta_data ti.id with
    | none => simp [hcase]
    | some ts =>
      simp only [hcase, List.map_flatMap]
      congr 1
      funext t
      simp [techEntry, subEntry, List.map_map, Function.comp]

/-- Witness for C9 at a concrete well-formed taxonomy: one tactic, one
technique, one sub-technique, two records. -/
theorem build_database_count_witness :
    (build_database [recTactic] [("ST0001".toList, [sampleTech])]).length =
      techniqueCount [("ST0001".toList, [sampleTech])] +
        subTechniqueCount [("ST0001".toList, [sampleTech])] :=
  (build_database_count [recTactic] [("ST0001".toList, [sampleTech])]
    (by decide) (by decide) (by decide)).1

/-! ### Claims C4, C7 and C10: persistence, router, unknown-id lookup -/

/-- C4 (code bug): `load_embeddings` installs a persisted index even when
its stored provider name differs from the configured one.  The artifact
below was saved under provider `all-mpnet-base-v2`; an engine configured
with the default `all-MiniLM-L6-v2` still loads its vectors and reports
success — no `StaleIndex` refusal exists in the code, although
`save_embeddings` stores the provider name for exactly that purpose. -/
theorem load_embeddings_ignores_provider :
    load_embeddings (some (save_embeddings [[(1:ℚ), 0]] ("all-mpnet-base-v2".toList)))
      = some [[(1:ℚ), 0]]
    ∧ "all-mpnet-base-v2".toList ≠ "all-MiniLM-L6-v2".toList := by
  exact ⟨rfl, by decide⟩

/-- The keyword loop of `answer_query` returns the canonical name of the
first keyword (in dict insertion order) occurring in the query. -/
lemma routeTactic_eq_find (ql : List Char) (l : List (List Char × List Char)) :
    routeTactic ql l = (l.find? (fun kv => subOf kv.1 ql)).map Prod.snd := by
  induction l with
  | nil => rfl
  | cons kv rest ih =>
    by_cases h : subOf kv.1 ql = true
    · simp [routeTactic, h, List.find?_cons_of_pos]
    · simp [routeTactic, h, List.find?_cons_of_neg, ih]

/-- C7: if the lowercased query contains a key of the fixed
`tactic_keywords` mapping, `answer_query` takes the tactic path for the
first matching keyword in mapping iteration order, returning exactly the
records whose tactic name contains the canonical name case-insensitively,
in store order (a filter, hence a sublist); otherwise it takes the
semantic path with `top_k = 5` and `min_score = 0.3`.  In particular the
query `"what are the reconnaissance techniques"` takes the tactic path
for `Reconnaissance`. -/
theorem answer_query_spec (embed : List Char → List ℚ)
    (embeddings : List (List ℚ)) (database : List Entry) (query : List Char) :
    (answer_query embed embeddings database query =
      match (tactic_keywords.find? (fun kv => subOf kv.1 (lower query))).map Prod.snd with
      | some canonical => QueryResponse.tacticPath canonical
          (database.filter (fun e => subOf (lower canonical) (lower e.tactic)))
      | none => QueryResponse.semanticPath
          (search embed embeddings database query 5 (3 / 10)))
    ∧ (∀ canonical, (search_by_tactic database canonical).Sublist database)
    ∧ (∀ canonical, ∀ e ∈ search_by_tactic database canonical,
        subOf (lower canonical) (lower e.tactic) = true)
    ∧ answer_query embed embeddings database
        ("what are the reconnaissance techniques".toList) =
        QueryResponse.tacticPath ("Reconnaissance".toList)
          (database.filter (fun e =>
            subOf (lower ("Reconnaissance".toList)) (lower e.tactic))) := by
  refine ⟨?_, ?_, ?_, ?_⟩
  · rw [answer_query, routeTactic_eq_find]
    cases hc : tactic_keywords.find? (fun kv => subOf kv.1 (lower query)) with
    | none => simp
    | some kv => simp [search_by_tactic]
  · intro canonical
    exact List.filter_sublist _
  · intro canonical e he
    exact (List.mem_filter.1 he).2
  · rw [answer_query]
    have hroute : routeTactic (lower ("what are the reconnaissance techniques".toList))
        tactic_keywords = some ("Reconnaissance".toList) := by decide
    rw [hroute]
    simp [search_by_tactic]

/-- Witness for C7: one reconnaissance record, the scenario query. -/
theorem answer_query_spec_witness :
    answer_query (fun _ => []) [] [techEntry recTactic sampleTech]
        ("what are the reconnaissance techniques".toList) =
      QueryResponse.tacticPath ("Reconnaissance".toList)
        [techEntry recTactic sampleTech]
    ∧ subOf (lower ("Reconnaissance".toList))
        (lower (techEntry recTactic sampleTech).tactic) = true := by
  have h := answer_query_spec (fun _ => []) [] [techEntry recTactic sampleTech]
    ("what are the reconnaissance techniques".toList)
  constructor
  · rw [h.2.2.2]
    congr 1
  · exact h.2.2.1 ("Reconnaissance".toList) (techEntry recTactic sampleTech)
      (by decide)

/-- C10: calling `get_related_techniques` with an id matching no record
returns `some []` — the empty result, not an error — and does so for every
embedding provider and every stored index: the provider is never
consulted. -/
theorem get_related_unknown_id (database : List Entry)
    (technique_id : List Char)
    (h : ∀ e ∈ database, e.id ≠ technique_id) :
    ∀ (embed : List Char → List ℚ) (embeddings : List (List ℚ)) (top_k : ℕ),
      get_related_techniques embed embeddings database technique_id top_k
        = some [] := by
  intro embed embeddings top_k
  have hfind : database.find? (fun e => e.id == technique_id) = none := by
    rw [List.find?_eq_none]
    intro e he
    simpa using h e he
  rw [get_related_techniques, hfind]

/-- Witness for C10 at a concrete database and unknown id. -/
theorem get_related_unknown_id_witness :
    get_related_techniques (fun _ => []) [] [jamEntry] ("QQQ-0000".toList) 5
      = some [] :=
  get_related_unknown_id [jamEntry] ("QQQ-0000".toList) (by decide)
    (fun _ => []) [] 5

/-! ### Helper lemmas: cosine similarity -/

lemma dotQ_cons (x y : ℚ) (xs ys : List ℚ) :
    dotQ (x :: xs) (y :: ys) = x * y + dotQ xs ys := by
  simp [dotQ]

lemma normSq_cons (x : ℚ) (xs : List ℚ) :
    normSq (x :: xs) = x * x + normSq xs := by
  simp [normSq, dotQ]

lemma normSq_nil : normSq [] = 0 := rfl

lemma normSq_nonneg (a : List ℚ) : 0 ≤ normSq a := by
  induction a with
  | nil => simp [normSq, dotQ]
  | cons x xs ih =>
    rw [normSq_cons]
    nlinarith [mul_self_nonneg x]

/-- Cauchy-Schwarz for the list dot product, squared form, over `ℚ`. -/
lemma dotQ_sq_le (a : List ℚ) : ∀ b : List ℚ,
    (dotQ a b) ^ 2 ≤ normSq a * normSq b := by
  induction a with
  | nil =>
    intro b
    simp [dotQ, normSq]
  | cons x xs ih =>
    intro b
    cases b with
    | nil =>
      simp [dotQ, normSq_nil]
    | cons y ys =>
      have ihb := ih ys
      have hna := normSq_nonneg xs
      have hnb := normSq_nonneg ys
      rw [dotQ_cons, normSq_cons, normSq_cons]
      have key : (2 * x * y * dotQ xs ys) ^ 2
          ≤ (x ^ 2 * normSq ys + y ^ 2 * normSq xs) ^ 2 := by
        nlinarith [sq_nonneg (x ^ 2 * normSq ys - y ^ 2 * normSq xs),
          mul_nonneg (sq_nonneg (x * y)) (sub_nonneg.2 ihb)]
      have hS : 0 ≤ x ^ 2 * normSq ys + y ^ 2 * normSq xs :=
        add_nonneg (mul_nonneg (sq_nonneg x) hnb) (mul_nonneg (sq_nonneg y) hna)
      have habs : 2 * x * y * dotQ xs ys ≤ x ^ 2 * normSq ys + y ^ 2 * normSq xs := by
        nlinarith [key, hS]
      nlinarith [habs, ihb]

lemma norm2_nonneg (a : List ℚ) : 0 ≤ norm2 a :=
  Real.sqrt_nonneg _

lemma norm2_pos (a : List ℚ) (h : normSq a ≠ 0) : 0 < norm2 a := by
  rw [norm2]
  apply Real.sqrt_pos.2
  have h1 : (0:ℚ) ≤ normSq a := normSq_nonneg a
  have h2 : (0:ℚ) < normSq a := lt_of_le_of_ne h1 (Ne.symm h)
  exact_mod_cast h2

lemma norm2_of_zero (a : List ℚ) (h : normSq a = 0) : norm2 a = 0 := by
  rw [norm2, h]
  simp

/-- Cauchy-Schwarz transported to the real norms. -/
lemma abs_dotQ_le (a b : List ℚ) :
    |(dotQ a b : ℝ)| ≤ norm2 a * norm2 b := by
  have hcs : ((dotQ a b : ℝ)) ^ 2 ≤ (normSq a : ℝ) * (normSq b : ℝ) := by
    exact_mod_cast dotQ_sq_le a b
  have h1 : |(dotQ a b : ℝ)| = Real.sqrt (((dotQ a b : ℝ)) ^ 2) :=
    (Real.sqrt_sq_eq_abs _).symm
  have hna : (0:ℝ) ≤ (normSq a : ℝ) := by exact_mod_cast normSq_nonneg a
  rw [h1, norm2, norm2, ← Real.sqrt_mul hna]
  exact Real.sqrt_le_sqrt hcs

lemma cosineSim_of_ne (a b : List ℚ) (ha : normSq a ≠ 0) (hb : normSq b ≠ 0) :
    cosineSim a b = some (cosineVal a b) := by
  rw [cosineSim, fdiv, cosineVal]
  rw [if_neg (mul_ne_zero (ne_of_gt (norm2_pos a ha)) (ne_of_gt (norm2_pos b hb)))]

lemma cosineSim_of_zero (a b : List ℚ) (h : normSq a = 0 ∨ normSq b = 0) :
    cosineSim a b = none := by
  rw [cosineSim, fdiv]
  rcases h with h | h
  · rw [if_pos (by rw [norm2_of_zero a h, zero_mul])]
  · rw [if_pos (by rw [norm2_of_zero b h, mul_zero])]

lemma cosineVal_bounds (a b : List ℚ) (ha : normSq a ≠ 0) (hb : normSq b ≠ 0) :
    -1 ≤ cosineVal a b ∧ cosineVal a b ≤ 1 := by
  have hpos : 0 < norm2 a * norm2 b :=
    mul_pos (norm2_pos a ha) (norm2_pos b hb)
  have habs : |cosineVal a b| ≤ 1 := by
    rw [cosineVal, abs_div, abs_of_pos hpos, div_le_one hpos]
    exact abs_dotQ_le a b
  exact abs_le.1 habs

/-! ### Claim C3: cosine similarity scores -/

/-- Counterexample for C3: on a zero-norm stored vector the code performs
the division by zero instead of defining the score to be 0 — the
similarity is `nan` (modelled `none`), not the number 0. -/
theorem cosineSim_zero_norm_cex :
    cosineSim [(0:ℚ)] [(1:ℚ)] = none
    ∧ normSq [(0:ℚ)] = 0
    ∧ cosineSim [(0:ℚ)] [(1:ℚ)] ≠ some 0 := by
  have h0 : normSq [(0:ℚ)] = 0 := by simp [normSq, dotQ]
  have h := cosineSim_of_zero [(0:ℚ)] [(1:ℚ)] (Or.inl h0)
  exact ⟨h, h0, by rw [h]; intro hc; cases hc⟩

/-- C3 (amended): each similarity is the cosine — the dot product divided
by the product of the two L2 norms — computed without any zero-norm
guard: whenever both norms are nonzero the score is a well-defined real
number in [-1, 1], and whenever either norm is exactly 0 the division by
zero makes the score undefined (`nan`, modelled `none`) rather than 0. -/
theorem cosineSim_spec :
    (∀ a b : List ℚ, normSq a ≠ 0 → normSq b ≠ 0 →
      cosineSim a b = some (cosineVal a b)
      ∧ cosineVal a b = (dotQ a b : ℝ) / (norm2 a * norm2 b)
      ∧ -1 ≤ cosineVal a b ∧ cosineVal a b ≤ 1)
    ∧ (∀ a b : List ℚ, normSq a = 0 ∨ normSq b = 0 → cosineSim a b = none) := by
  constructor
  · intro a b ha hb
    exact ⟨cosineSim_of_ne a b ha hb, rfl,
      (cosineVal_bounds a b ha hb).1, (cosineVal_bounds a b ha hb).2⟩
  · intro a b h
    exact cosineSim_of_zero a b h

/-- Witness for C3 on a concrete pair of unit vectors. -/
theorem cosineSim_spec_witness :
    cosineSim [(1:ℚ)] [(1:ℚ)] = some (cosineVal [(1:ℚ)] [(1:ℚ)])
    ∧ -1 ≤ cosineVal [(1:ℚ)] [(1:ℚ)] ∧ cosineVal [(1:ℚ)] [(1:ℚ)] ≤ 1 := by
  have h1 : normSq [(1:ℚ)] ≠ 0 := by simp [normSq, dotQ]
  have h := cosineSim_spec.1 [(1:ℚ)] [(1:ℚ)] h1 h1
  exact ⟨h.1, h.2.2⟩

/-! ### Helper lemmas: argsort-based selection -/

section RealSort

open Classical

lemma seqOption_map_some {α β : Type} (f : β → Option α) (g : β → α)
    (l : List β) (h : ∀ x ∈ l, f x = some (g x)) :
    seqOption (l.map f) = some (l.map g) := by
  induction l with
  | nil => rfl
  | cons a t ih =>
    rw [List.map_cons, h a (List.mem_cons_self a t)]
    rw [List.map_cons, seqOption, ih (fun x hx => h x (List.mem_cons_of_mem a hx))]
    rfl

lemma idxRel_total (sims : List ℝ) (i j : ℕ) :
    idxRel sims i j ∨ idxRel sims j i := by
  unfold idxRel
  rcases lt_trichotomy (sims.getD i 0) (sims.getD j 0) with h | h | h
  · exact Or.inl (Or.inl h)
  · rcases le_total i j with hij | hij
    · exact Or.inl (Or.inr ⟨h, hij⟩)
    · exact Or.inr (Or.inr ⟨h.symm, hij⟩)
  · exact Or.inr (Or.inl h)

lemma idxRel_trans (sims : List ℝ) (i j k : ℕ) :
    idxRel sims i j → idxRel sims j k → idxRel sims i k := by
  unfold idxRel
  intro h1 h2
  rcases h1 with h1 | ⟨he1, hi1⟩
  · rcases h2 with h2 | ⟨he2, _⟩
    · exact Or.inl (h1.trans h2)
    · exact Or.inl (h1.trans_eq he2)
  · rcases h2 with h2 | ⟨he2, hi2⟩
    · exact Or.inl (he1.trans_lt h2)
    · exact Or.inr ⟨he1.trans he2, hi1.trans hi2⟩

lemma argsortAsc_perm (sims : List ℝ) :
    (argsortAsc sims).Perm (List.range sims.length) := by
  unfold argsortAsc
  exact List.perm_insertionSort _ _

lemma argsortAsc_pairwise (sims : List ℝ) :
    (argsortAsc sims).Pairwise (idxRel sims) := by
  haveI : IsTotal ℕ (idxRel sims) := ⟨idxRel_total sims⟩
  haveI : IsTrans ℕ (idxRel sims) := ⟨idxRel_trans sims⟩
  unfold argsortAsc
  exact List.sorted_insertionSort _ _

lemma filterMap_ite {α β : Type} (p : α → Prop) [DecidablePred p] (f : α → β)
    (l : List α) :
    l.filterMap (fun x => if p x then some (f x) else none)
      = (l.filter (fun x => decide (p x))).map f := by
  induction l with
  | nil => rfl
  | cons a t ih =>
    by_cases h : p a
    · simp [List.filterMap_cons, List.filter_cons, h, ih]
    · simp [List.filterMap_cons, List.filter_cons, h, ih]

/-- For a list sorted by `r` and a predicate closed backwards along `r`,
truncating before filtering equals filtering before truncating. -/
lemma filter_take_of_sorted {α : Type} (p : α → Bool) (r : α → α → Prop)
    (hmono : ∀ a b, r a b → p b = true → p a = true) :
    ∀ (l : List α) (k : ℕ), l.Pairwise r →
      (l.take k).filter p = (l.filter p).take k := by
  intro l
  induction l with
  | nil => intro k _; simp
  | cons a t ih =>
    intro k hp
    have hra := (List.pairwise_cons.1 hp).1
    have hpt := (List.pairwise_cons.1 hp).2
    cases k with
    | zero => simp
    | succ k' =>
      rw [List.take_succ_cons, List.filter_cons, List.filter_cons]
      by_cases hpa : p a = true
      · rw [if_pos hpa, if_pos hpa, List.take_succ_cons, ih k' hpt]
      · rw [if_neg hpa, if_neg hpa]
        have hall : ∀ b ∈ t, ¬ (p b = true) := by
          intro b hb hpb
          exact hpa (hmono a b (hra b hb) hpb)
        have h1 : (t.take k').filter p = [] :=
          List.filter_eq_nil_iff.2 (fun b hb => hall b (List.take_subset k' t hb))
        have h2 : t.filter p = [] := List.filter_eq_nil_iff.2 hall
        rw [h1, h2, List.take_nil]

end RealSort

section RealRank

open Classical

/-- C6 (amended): in the defined (`nan`-free) case, `search` ranks by a
total order `ord` on the record indices that is a permutation of all
indices, sorted by strictly descending cosine score with ties broken by
**descending** store position (the reversal of the stable ascending
argsort reverses tied runs), and the result is that order filtered to
scores `>= min_score` and truncated to the first `top_k` (filtering
before or after truncation is equivalent here), each index paired with
its database record and score. -/
theorem search_rank_spec (embeddings : List (List ℚ)) (database : List Entry)
    (query_embedding : List ℚ) (top_k : ℕ) (min_score : ℝ)
    (hq : normSq query_embedding ≠ 0)
    (hE : ∀ v ∈ embeddings, normSq v ≠ 0) :
    ∃ ord : List ℕ,
      ord.Perm (List.range embeddings.length)
      ∧ ord.Pairwise (fun i j =>
          simVal embeddings query_embedding j < simVal embeddings query_embedding i
          ∨ (simVal embeddings query_embedding i = simVal embeddings query_embedding j
              ∧ j < i))
      ∧ searchVec embeddings database query_embedding top_k min_score =
          some (((ord.filter (fun i =>
              decide (min_score ≤ simVal embeddings query_embedding i))).take top_k).map
            (fun i => (database.getD i default, simVal embeddings query_embedding i))) := by
  have hseq : seqOption (embeddings.map (fun v => cosineSim v query_embedding))
      = some (embeddings.map (fun v => cosineVal v query_embedding)) :=
    seqOption_map_some _ _ _
      (fun v hv => cosineSim_of_ne v query_embedding (hE v hv) hq)
  have h1 := argsortAsc_pairwise (embeddings.map (fun v => cosineVal v query_embedding))
  have h2 : (argsortAsc (embeddings.map (fun v => cosineVal v query_embedding))).reverse.Pairwise
      (fun i j => idxRel (embeddings.map (fun v => cosineVal v query_embedding)) j i) :=
    List.pairwise_reverse.2 h1
  have hperm : (argsortAsc (embeddings.map (fun v => cosineVal v query_embedding))).reverse.Perm
      (List.range embeddings.length) := by
    have h := (List.reverse_perm _).trans
      (argsortAsc_perm (embeddings.map (fun v => cosineVal v query_embedding)))
    rwa [List.length_map] at h
  refine ⟨(argsortAsc (embeddings.map (fun v => cosineVal v query_embedding))).reverse,
    hperm, ?_, ?_⟩
  · have hnd : (argsortAsc (embeddings.map (fun v => cosineVal v query_embedding))).reverse.Nodup :=
      hperm.nodup_iff.2 (List.nodup_range _)
    refine (h2.and hnd).imp ?_
    intro i j hij
    obtain ⟨hr, hne⟩ := hij
    unfold idxRel at hr
    simp only [simVal]
    rcases hr with hr | ⟨heq, hle⟩
    · exact Or.inl hr
    · exact Or.inr ⟨heq.symm, lt_of_le_of_ne hle (Ne.symm hne)⟩
  · simp only [simVal]
    rw [searchVec, searchIndex, hseq, Option.map_some', Option.map_some']
    rw [filterMap_ite
      (fun i => min_score ≤ (embeddings.map (fun v => cosineVal v query_embedding)).getD i 0)
      (fun i => (i, (embeddings.map (fun v => cosineVal v query_embedding)).getD i 0))]
    rw [List.map_map]
    have hmono : ∀ a b : ℕ,
        idxRel (embeddings.map (fun v => cosineVal v query_embedding)) b a →
        (decide (min_score ≤ (embeddings.map (fun v => cosineVal v query_embedding)).getD b 0)) = true →
        (decide (min_score ≤ (embeddings.map (fun v => cosineVal v query_embedding)).getD a 0)) = true := by
      intro a b hr hp
      simp only [decide_eq_true_eq] at hp ⊢
      unfold idxRel at hr
      rcases hr with hr | ⟨heq, _⟩
      · exact hp.trans (le_of_lt hr)
      · exact hp.trans (le_of_eq heq)
    have hswap := filter_take_of_sorted
      (fun i => decide (min_score ≤ (embeddings.map (fun v => cosineVal v query_embedding)).getD i 0))
      (fun i j => idxRel (embeddings.map (fun v => cosineVal v query_embedding)) j i)
      hmono
      ((argsortAsc (embeddings.map (fun v => cosineVal v query_embedding))).reverse)
      top_k h2
    rw [hswap]
    simp only [Function.comp_def]

end RealRank

section RealConcrete

open Classical

/-- Witness for C6 at a one-record index and query. -/
theorem search_rank_spec_witness :
    ∃ ord : List ℕ,
      ord.Perm (List.range ([[(1:ℚ)]] : List (List ℚ)).length)
      ∧ ord.Pairwise (fun i j =>
          simVal [[(1:ℚ)]] [(1:ℚ)] j < simVal [[(1:ℚ)]] [(1:ℚ)] i
          ∨ (simVal [[(1:ℚ)]] [(1:ℚ)] i = simVal [[(1:ℚ)]] [(1:ℚ)] j ∧ j < i))
      ∧ searchVec [[(1:ℚ)]] [jamEntry] [(1:ℚ)] 1 0 =
          some (((ord.filter (fun i =>
              decide ((0:ℝ) ≤ simVal [[(1:ℚ)]] [(1:ℚ)] i))).take 1).map
            (fun i => ([jamEntry].getD i default, simVal [[(1:ℚ)]] [(1:ℚ)] i))) :=
  search_rank_spec [[(1:ℚ)]] [jamEntry] [(1:ℚ)] 1 0
    (by simp [normSq, dotQ])
    (by
      intro v hv
      rw [List.mem_singleton] at hv
      subst hv
      simp [normSq, dotQ])

lemma argsortAsc_pair (s0 s1 : ℝ) (h : s0 ≤ s1) :
    argsortAsc [s0, s1] = [0, 1] := by
  have hrel : idxRel [s0, s1] 0 1 := by
    unfold idxRel
    simp only [List.getD_cons_zero, List.getD_cons_succ]
    rcases lt_or_eq_of_le h with h' | h'
    · exact Or.inl h'
    · exact Or.inr ⟨h', Nat.zero_le 1⟩
  unfold argsortAsc
  have hr2 : List.range ([s0, s1] : List ℝ).length = [0, 1] := by
    simp [List.range_succ]
  rw [hr2]
  simp only [List.insertionSort, List.orderedInsert]
  rw [if_pos hrel]

lemma norm2_eval (v : List ℚ) (c : ℚ) (hc : 0 ≤ c) (h : normSq v = c * c) :
    norm2 v = (c : ℝ) := by
  rw [norm2, h]
  push_cast
  exact Real.sqrt_mul_self (by exact_mod_cast hc)

lemma dotQ_pair (a b c d : ℚ) : dotQ [a, b] [c, d] = a * c + b * d := by
  simp [dotQ]

lemma normSq_pair (a b : ℚ) : normSq [a, b] = a * a + b * b := by
  simp [normSq, dotQ]

lemma cosineVal_eval (a b : List ℚ) (d ca cb : ℚ) (hca : 0 ≤ ca) (hcb : 0 ≤ cb)
    (hd : dotQ a b = d) (ha : normSq a = ca * ca) (hb : normSq b = cb * cb) :
    cosineVal a b = (d : ℝ) / ((ca : ℝ) * (cb : ℝ)) := by
  rw [cosineVal, hd, norm2_eval a ca hca ha, norm2_eval b cb hcb hb]

/-- The two-record, two-vector instance of `search`, fully evaluated: with
similarities `s0 <= s1`, both `>= 0`, the result pairs the second record
first (ascending argsort `[0, 1]`, reversed to `[1, 0]`). -/
lemma searchVec_pair (v0 v1 q : List ℚ) (dbA dbB : Entry)
    (h0 : normSq v0 ≠ 0) (h1 : normSq v1 ≠ 0) (hq : normSq q ≠ 0)
    (hle : cosineVal v0 q ≤ cosineVal v1 q)
    (hm0 : (0:ℝ) ≤ cosineVal v0 q) (hm1 : (0:ℝ) ≤ cosineVal v1 q) :
    searchVec [v0, v1] [dbA, dbB] q 2 0 =
      some [(dbB, cosineVal v1 q), (dbA, cosineVal v0 q)] := by
  have hseq : seqOption ([v0, v1].map (fun v => cosineSim v q)) =
      some ([v0, v1].map (fun v => cosineVal v q)) := by
    apply seqOption_map_some
    intro v hv
    rcases List.mem_cons.1 hv with h | h
    · subst h; exact cosineSim_of_ne _ q h0 hq
    · rw [List.mem_singleton] at h
      subst h; exact cosineSim_of_ne _ q h1 hq
  rw [searchVec, searchIndex, hseq, Option.map_some', Option.map_some']
  have hmap : ([v0, v1].map (fun v => cosineVal v q))
      = [cosineVal v0 q, cosineVal v1 q] := by simp
  rw [hmap, argsortAsc_pair _ _ hle]
  rw [show ([0, 1] : List ℕ).reverse = [1, 0] from rfl]
  rw [show List.take 2 ([1, 0] : List ℕ) = [1, 0] from rfl]
  simp only [List.filterMap_cons, List.filterMap_nil,
    List.getD_cons_succ, List.getD_cons_zero]
  rw [if_pos hm1, if_pos hm0]
  simp only [List.map_cons, List.map_nil, List.getD_cons_succ, List.getD_cons_zero]

/-- Counterexample for C6: two distinct records with exactly equal cosine
scores (both 1) come back in **reversed** store order — `entryB` before
`entryA` — because `np.argsort(...)[::-1]` reverses tied runs; the claim's
"ties kept in original store order" fails. -/
theorem search_tie_order_cex :
    searchVec [[(1:ℚ), 0], [(2:ℚ), 0]] [entryA, entryB] [(1:ℚ), 0] 2 0 =
      some [(entryB, 1), (entryA, 1)]
    ∧ entryA ≠ entryB := by
  have hA : cosineVal [(1:ℚ), 0] [(1:ℚ), 0] = 1 := by
    rw [cosineVal_eval [(1:ℚ), 0] [(1:ℚ), 0] 1 1 1 (by norm_num) (by norm_num)
      (by rw [dotQ_pair]; norm_num) (by rw [normSq_pair]; norm_num)
      (by rw [normSq_pair]; norm_num)]
    norm_num
  have hB : cosineVal [(2:ℚ), 0] [(1:ℚ), 0] = 1 := by
    rw [cosineVal_eval [(2:ℚ), 0] [(1:ℚ), 0] 2 2 1 (by norm_num) (by norm_num)
      (by rw [dotQ_pair]; norm_num) (by rw [normSq_pair]; norm_num)
      (by rw [normSq_pair]; norm_num)]
    norm_num
  constructor
  · have h := searchVec_pair [(1:ℚ), 0] [(2:ℚ), 0] [(1:ℚ), 0] entryA entryB
      (by rw [normSq_pair]; norm_num) (by rw [normSq_pair]; norm_num)
      (by rw [normSq_pair]; norm_num)
      (le_of_eq (hA.trans hB.symm))
      (by rw [hA]; norm_num) (by rw [hB]; norm_num)
    rw [h, hA, hB]
  · decide

/-- C5 (code bug): `get_related_techniques` removes the *first* element of
the ranking (`[1:]`), not the queried record.  Here the stored vector of
the queried record `REC-0001` is less similar to the query embedding of
its own description than record `REC-0002` is, so `REC-0002` lands on
rank one, gets dropped, and the queried record itself is returned —
contradicting the source's own `# Exclude itself` intent. -/
theorem get_related_includes_self :
    get_related_techniques (fun _ => [(0:ℚ), 1]) [[(1:ℚ), 0], [(0:ℚ), 1]]
        [entryA, entryB] ("REC-0001".toList) 1
      = some [(entryA, 0)]
    ∧ entryA.id = "REC-0001".toList := by
  have h0 : cosineVal [(1:ℚ), 0] [(0:ℚ), 1] = 0 := by
    rw [cosineVal_eval [(1:ℚ), 0] [(0:ℚ), 1] 0 1 1 (by norm_num) (by norm_num)
      (by rw [dotQ_pair]; norm_num) (by rw [normSq_pair]; norm_num)
      (by rw [normSq_pair]; norm_num)]
    norm_num
  have h1 : cosineVal [(0:ℚ), 1] [(0:ℚ), 1] = 1 := by
    rw [cosineVal_eval [(0:ℚ), 1] [(0:ℚ), 1] 1 1 1 (by norm_num) (by norm_num)
      (by rw [dotQ_pair]; norm_num) (by rw [normSq_pair]; norm_num)
      (by rw [normSq_pair]; norm_num)]
    norm_num
  constructor
  · have hfind : ([entryA, entryB].find? (fun e => e.id == "REC-0001".toList))
        = some entryA := rfl
    rw [get_related_techniques, hfind]
    show (search (fun _ => [(0:ℚ), 1]) [[(1:ℚ), 0], [(0:ℚ), 1]]
        [entryA, entryB] entryA.description 2 0).map (fun l => l.drop 1)
      = some [(entryA, 0)]
    rw [search]
    show ((searchVec [[(1:ℚ), 0], [(0:ℚ), 1]] [entryA, entryB]
        [(0:ℚ), 1] 2 0).map (fun l => l.drop 1)) = some [(entryA, 0)]
    have hs := searchVec_pair [(1:ℚ), 0] [(0:ℚ), 1] [(0:ℚ), 1] entryA entryB
      (by rw [normSq_pair]; norm_num) (by rw [normSq_pair]; norm_num)
      (by rw [normSq_pair]; norm_num)
      (by rw [h0, h1]; norm_num)
      (le_of_eq h0.symm) (by rw [h1]; norm_num)
    rw [hs, h0]
    simp
  · rfl

end RealConcrete
